import Mathlib

/-!
Verification of the Ising DBM layer core (pylearn2/models/dbm/ising.py).

The embedding works over real matrices indexed by Fin types.  A theano
shared weight matrix W of shape (input_dim, dim) becomes
Matrix (Fin ni) (Fin no) Real; a batch of states of shape
(batch_size, layer_dim) becomes Matrix (Fin bs) (Fin d) Real.
Random draws consumed by sampling are modelled as explicitly passed
uniform driver matrices, mirroring the numpy pattern
sample = 2 * (driver < on_prob) - 1 used by make_state.
-/

open Finset

namespace Ising

/-- Modelled from the spec: the linear-transform collaborator
(pylearn2.linear.matrixmul.MatrixMul, not under src/).  The spec describes
it as apply forward, W·x, on batches: lmul sends a batch x of shape
(bs, ni) to x·W of shape (bs, no). -/
def lmul {bs ni no : ℕ} (W : Matrix (Fin ni) (Fin no) ℝ)
    (x : Matrix (Fin bs) (Fin ni) ℝ) : Matrix (Fin bs) (Fin no) ℝ :=
  x * W

/-- Modelled from the spec: the transpose application of the
linear-transform collaborator, Wᵀ·x on batches: a batch x of shape
(bs, no) goes to x·Wᵀ of shape (bs, ni). -/
def lmul_T {bs ni no : ℕ} (W : Matrix (Fin ni) (Fin no) ℝ)
    (x : Matrix (Fin bs) (Fin no) ℝ) : Matrix (Fin bs) (Fin ni) ℝ :=
  x * W.transpose

/-- IsingHidden.downward_message for a flat (VectorSpace) input space:
rval = transformer.lmul_T(downward_state), no reformat needed. -/
def downward_message {bs ni no : ℕ} (W : Matrix (Fin ni) (Fin no) ℝ)
    (downward_state : Matrix (Fin bs) (Fin no) ℝ) : Matrix (Fin bs) (Fin ni) ℝ :=
  lmul_T W downward_state

/-- IsingHidden.expected_energy_term for a flat input space (the
requires_reformat branch does not fire).  Follows the source:
bias_term = T.dot(state, b);
weights_term = (transformer.lmul(state_below) * state).sum(axis=1);
rval = -bias_term - weights_term.  The two averaging flags are accepted
and ignored exactly as in the source. -/
def expected_energy_term {bs ni no : ℕ} (W : Matrix (Fin ni) (Fin no) ℝ)
    (b : Fin no → ℝ) (state : Matrix (Fin bs) (Fin no) ℝ) ( average : Bool)
    (state_below : Matrix (Fin bs) (Fin ni) ℝ) ( average_below : Bool) :
    Fin bs → ℝ :=
  let bias_term : Fin bs → ℝ := fun i => ∑ j, state i j * b j
  let weights_term : Fin bs → ℝ := fun i => ∑ j, lmul W state_below i j * state i j
  fun i => -bias_term i - weights_term i

/-- IsingHidden.mf_update for a flat input space.  The layer above is an
IsingHidden represented by its weight matrix W_above; its contribution is
layer_above.downward_message(state_above), present exactly when
state_above is non-null.  double_weights doubles state_below before the
pre-activation; the output is T.tanh(z). -/
noncomputable def mf_update {bs ni no k : ℕ} (W : Matrix (Fin ni) (Fin no) ℝ)
    (b : Fin no → ℝ) (state_below : Matrix (Fin bs) (Fin ni) ℝ)
    (state_above : Option (Matrix (Fin bs) (Fin k) ℝ))
    (W_above : Matrix (Fin no) (Fin k) ℝ) (double_weights : Bool) :
    Matrix (Fin bs) (Fin no) ℝ :=
  let msg : Option (Matrix (Fin bs) (Fin no) ℝ) :=
    state_above.map (fun sa => downward_message W_above sa)
  let sb : Matrix (Fin bs) (Fin ni) ℝ :=
    if double_weights then fun i p => 2 * state_below i p else state_below
  let z : Matrix (Fin bs) (Fin no) ℝ := fun i j => lmul W sb i j + b j
  let z2 : Matrix (Fin bs) (Fin no) ℝ :=
    match msg with
    | some m => fun i j => z i j + m i j
    | none => z
  fun i j => Real.tanh (z2 i j)

/-- The additive constant 1e-7 guarding the zero-norm case in
IsingHidden.censor_updates. -/
noncomputable def epsNorm : ℝ := 1 / 10 ^ 7

/-- L2 norm of column j of a matrix, as computed by
T.sqrt(T.sum(T.sqr(updated_W), axis=0)). -/
noncomputable def colNorm {m n : ℕ} (U : Matrix (Fin m) (Fin n) ℝ) (j : Fin n) : ℝ :=
  Real.sqrt (∑ i, U i j ^ 2)

/-- IsingHidden.censor_updates acting on the proposed update for W.  When
max_col_norm is set, every column is rescaled by
T.clip(col_norms, 0, max_col_norm) / (1e-7 + col_norms); otherwise the
proposed update is left alone.  T.clip(x, lo, hi) is min (max x lo) hi. -/
noncomputable def censor_updates {m n : ℕ} (max_col_norm : Option ℝ)
    (updated_W : Matrix (Fin m) (Fin n) ℝ) : Matrix (Fin m) (Fin n) ℝ :=
  match max_col_norm with
  | none => updated_W
  | some c =>
    let col_norms : Fin n → ℝ := fun j => colNorm updated_W j
    let desired_norms : Fin n → ℝ := fun j => min (max (col_norms j) 0) c
    fun i j => updated_W i j * (desired_norms j / (epsNorm + col_norms j))

lemma epsNorm_pos : 0 < epsNorm := by norm_num [epsNorm]

lemma colNorm_nonneg {m n : ℕ} (U : Matrix (Fin m) (Fin n) ℝ) (j : Fin n) :
    0 ≤ colNorm U j :=
  Real.sqrt_nonneg _

lemma censor_updates_some_apply {m n : ℕ} (c : ℝ)
    (U : Matrix (Fin m) (Fin n) ℝ) (i : Fin m) (j : Fin n) :
    censor_updates (some c) U i j =
      U i j * (min (max (colNorm U j) 0) c / (epsNorm + colNorm U j)) := rfl

lemma colNorm_col_smul {m n : ℕ} (U : Matrix (Fin m) (Fin n) ℝ)
    (t : Fin n → ℝ) (j : Fin n) :
    colNorm (fun i j => U i j * t j) j = |t j| * colNorm U j := by
  unfold colNorm
  have h : (∑ i, (U i j * t j) ^ 2) = t j ^ 2 * ∑ i, U i j ^ 2 := by
    rw [Finset.mul_sum]
    exact Finset.sum_congr rfl fun i _ => by ring
  rw [h, Real.sqrt_mul (sq_nonneg _), Real.sqrt_sq_eq_abs]

lemma colNorm_censor {m n : ℕ} (c : ℝ) (U : Matrix (Fin m) (Fin n) ℝ)
    (j : Fin n) :
    colNorm (censor_updates (some c) U) j =
      |min (max (colNorm U j) 0) c / (epsNorm + colNorm U j)| * colNorm U j := by
  have h : censor_updates (some c) U =
      fun i j => U i j * (min (max (colNorm U j) 0) c / (epsNorm + colNorm U j)) :=
    rfl
  rw [h, colNorm_col_smul]

/-- The only fixed point of the set-max_col_norm projection is the zero
matrix: every nonzero column is strictly shrunk by the factor
min(norm, c) / (1e-7 + norm) < 1. -/
lemma censor_fixed_iff {m n : ℕ} (c : ℝ) (X : Matrix (Fin m) (Fin n) ℝ) :
    censor_updates (some c) X = X ↔ X = 0 := by
  constructor
  · intro h
    by_contra hX
    have hex : ∃ i j, X i j ≠ 0 := by
      by_contra hall
      push_neg at hall
      refine hX ?_
      funext i j
      simpa using hall i j
    obtain ⟨i, j, hij⟩ := hex
    have hnpos : 0 < colNorm X j := by
      unfold colNorm
      refine Real.sqrt_pos.mpr ?_
      have h1 : X i j ^ 2 ≤ ∑ i2, X i2 j ^ 2 :=
        Finset.single_le_sum (fun i2 _ => sq_nonneg (X i2 j)) (Finset.mem_univ i)
      have h2 : 0 < X i j ^ 2 := by positivity
      linarith
    have heq := congrFun (congrFun h i) j
    rw [censor_updates_some_apply] at heq
    have hfac : min (max (colNorm X j) 0) c / (epsNorm + colNorm X j) = 1 := by
      refine mul_left_cancel₀ hij ?_
      rw [mul_one]
      exact heq
    have hdpos : 0 < epsNorm + colNorm X j := by
      have := epsNorm_pos
      linarith
    rw [div_eq_iff hdpos.ne', one_mul] at hfac
    have hle : min (max (colNorm X j) 0) c ≤ colNorm X j := by
      rw [max_eq_left hnpos.le]
      exact min_le_left _ _
    have := epsNorm_pos
    linarith
  · intro h
    subst h
    have h0 : censor_updates (some c) (0 : Matrix (Fin m) (Fin n) ℝ) =
        fun i j => (0 : Matrix (Fin m) (Fin n) ℝ) i j *
          (min (max (colNorm (0 : Matrix (Fin m) (Fin n) ℝ) j) 0) c /
            (epsNorm + colNorm (0 : Matrix (Fin m) (Fin n) ℝ) j)) := rfl
    rw [h0]
    funext i j
    simp

/-- A concrete 1 by 1 proposed weight update with single entry 1, used as
a concrete input for the column-norm projection facts. -/
def Wone : Matrix (Fin 1) (Fin 1) ℝ := fun _ _ => 1

lemma colNorm_Wone : colNorm Wone 0 = 1 := by
  unfold colNorm Wone
  simp

/-- np.arctanh, written through the logarithm. -/
noncomputable def arctanh (x : ℝ) : ℝ := Real.log ((1 + x) / (1 - x)) / 2

/-- X.max() over the whole design matrix (numpy max needs a nonempty
array, hence the successor-shaped index types).  Matrix entries are
embedded as rationals so the ±1 checks stay decidable. -/
def matMax {m n : ℕ} (X : Matrix (Fin (m + 1)) (Fin (n + 1)) ℚ) : ℚ :=
  Finset.univ.sup' Finset.univ_nonempty
    (fun p : Fin (m + 1) × Fin (n + 1) => X p.1 p.2)

/-- X.min() over the whole design matrix. -/
def matMin {m n : ℕ} (X : Matrix (Fin (m + 1)) (Fin (n + 1)) ℚ) : ℚ :=
  Finset.univ.inf' Finset.univ_nonempty
    (fun p : Fin (m + 1) × Fin (n + 1) => X p.1 p.2)

/-- X.mean(axis=0): the mean of column j over the batch axis. -/
def colMean {m n : ℕ} (X : Matrix (Fin (m + 1)) (Fin (n + 1)) ℚ)
    (j : Fin (n + 1)) : ℚ :=
  (∑ i, X i j) / (m + 1)

/-- np.clip on scalars: min (max x lo) hi. -/
def clip (x lo hi : ℚ) : ℚ := min (max x lo) hi

/-- init_tanh_bias_from_marginals with use_y = False: raise ValueError
unless X.max() == 1, then assert X.min() == -1., then return
np.arctanh(np.clip(X.mean(axis=0), 1e-7, 1 - 1e-7)).  The two checks run
before the bias vector is computed, which the Except structure makes
explicit. -/
noncomputable def init_tanh_bias_from_marginals {m n : ℕ}
    (X : Matrix (Fin (m + 1)) (Fin (n + 1)) ℚ) :
    Except String (Fin (n + 1) → ℝ) :=
  if matMax X = 1 then
    if matMin X = -1 then
      Except.ok (fun j =>
        arctanh ((clip (colMean X j) (1 / 10 ^ 7) (1 - 1 / 10 ^ 7) : ℚ) : ℝ))
    else Except.error "AssertionError: X.min() == -1."
  else
    Except.error
      "Expected design matrix to consist entirely of 0s and 1s, but maximum value is wrong"

/-- A concrete design matrix whose extremes are -1 and 1 but which
contains the non-spin value 1/2. -/
def Xhalf : Matrix (Fin (0 + 1)) (Fin (2 + 1)) ℚ :=
  fun _ j => ![(-1 : ℚ), 1, 1 / 2] j

lemma Xhalf_apply_two (i : Fin (0 + 1)) : Xhalf i 2 = 1 / 2 := rfl

lemma matMax_Xhalf : matMax Xhalf = 1 := by
  unfold matMax
  refine le_antisymm ?_ ?_
  · refine Finset.sup'_le _ _ ?_
    rintro ⟨i, j⟩ -
    fin_cases j <;> norm_num [Xhalf]
  · have h : Xhalf 0 1 = 1 := rfl
    calc (1 : ℚ) = Xhalf 0 1 := h.symm
    _ ≤ _ := Finset.le_sup' (fun p : Fin (0 + 1) × Fin (2 + 1) => Xhalf p.1 p.2)
        (Finset.mem_univ ((0 : Fin (0 + 1)), (1 : Fin (2 + 1))))

lemma matMin_Xhalf : matMin Xhalf = -1 := by
  unfold matMin
  refine le_antisymm ?_ ?_
  · have h : Xhalf 0 0 = -1 := rfl
    calc _ ≤ Xhalf 0 0 :=
          Finset.inf'_le (fun p : Fin (0 + 1) × Fin (2 + 1) => Xhalf p.1 p.2)
            (Finset.mem_univ ((0 : Fin (0 + 1)), (0 : Fin (2 + 1))))
    _ = -1 := h
  · refine Finset.le_inf' _ _ ?_
    rintro ⟨i, j⟩ -
    fin_cases j <;> norm_num [Xhalf]

/-- T.nnet.sigmoid. -/
noncomputable def sigmoid (x : ℝ) : ℝ := 1 / (1 + Real.exp (-x))

/-- IsingHidden.sample for a flat input space.  The explicit random source
theano_rng is modelled as an optional matrix of uniform [0,1) drivers, and
theano_rng.binomial(p, n=1) as the indicator driver < p; the source raises
ValueError when theano_rng is None before anything else happens.  The
layer above is represented by its weight matrix W_above as in mf_update. -/
noncomputable def sample {bs ni no k : ℕ} (W : Matrix (Fin ni) (Fin no) ℝ)
    (b : Fin no → ℝ) (state_below : Matrix (Fin bs) (Fin ni) ℝ)
    (state_above : Option (Matrix (Fin bs) (Fin k) ℝ))
    (W_above : Matrix (Fin no) (Fin k) ℝ)
    (theano_rng : Option (Matrix (Fin bs) (Fin no) ℝ)) :
    Except String (Matrix (Fin bs) (Fin no) ℝ) :=
  match theano_rng with
  | none =>
    Except.error
      "theano_rng is required; it just defaults to None so that it may appear after layer_above / state_above in the list."
  | some rng =>
    let msg : Option (Matrix (Fin bs) (Fin no) ℝ) :=
      state_above.map (fun sa => downward_message W_above sa)
    let z : Matrix (Fin bs) (Fin no) ℝ := fun i j => lmul W state_below i j + b j
    let z2 : Matrix (Fin bs) (Fin no) ℝ :=
      match msg with
      | some mv => fun i j => z i j + mv i j
      | none => z
    let on_prob : Matrix (Fin bs) (Fin no) ℝ := fun i j => sigmoid (2 * z2 i j)
    Except.ok (fun i j => (if rng i j < on_prob i j then (1 : ℝ) else 0) * 2 - 1)

/-- The weight-initialization part of IsingHidden.set_input_space.  The
rng is modelled by two matrices of uniform [0,1) draws: unif01 feeds
rng.uniform(-irange, irange) as -irange + u * (2 * irange), and incl01
feeds the inclusion test rng.uniform(0, 1) < include_prob.  The two
asserts on irange / sparse_init become the error branches; the
sparse_init branch builds np.zeros((input_dim, dim)) and multiplies it by
sparse_stdev, exactly as the source does. -/
noncomputable def set_input_space_W {ni no : ℕ} (irange : Option ℝ)
    (sparse_init : Option ℝ) (sparse_stdev include_prob : ℝ)
    (unif01 incl01 : Matrix (Fin ni) (Fin no) ℝ) :
    Except String (Matrix (Fin ni) (Fin no) ℝ) :=
  match irange with
  | some ir =>
    match sparse_init with
    | some _ => Except.error "AssertionError: self.sparse_init is None"
    | none =>
      Except.ok (fun i j =>
        (-ir + unif01 i j * (2 * ir)) *
          (if incl01 i j < include_prob then 1 else 0))
  | none =>
    match sparse_init with
    | none => Except.error "AssertionError: self.sparse_init is not None"
    | some _ => Except.ok (fun i j => 0 * sparse_stdev)

end Ising

/-- C1: IsingHidden.expected_energy_term returns, per batch example,
exactly -(state·b) - sum over units of (W·state_below ⊙ state),
independently of the two averaging flags. -/
theorem expected_energy_term_formula {bs ni no : ℕ}
    (W : Matrix (Fin ni) (Fin no) ℝ) (b : Fin no → ℝ)
    (state : Matrix (Fin bs) (Fin no) ℝ) ( average : Bool)
    (state_below : Matrix (Fin bs) (Fin ni) ℝ) ( average_below : Bool) :
    Ising.expected_energy_term W b state average state_below average_below =
      fun i => -(∑ j, state i j * b j) -
        ∑ j, (∑ p, state_below i p * W p j) * state i j := by
  funext i
  simp [Ising.expected_energy_term, Ising.lmul, Matrix.mul_apply]

/-- C2: IsingHidden.mf_update with double_weights = false returns exactly
tanh(z) with z = W·state_below + b, plus the downward message of the layer
above when state_above is non-null; no randomness is involved. -/
theorem mf_update_tanh {bs ni no k : ℕ} (W : Matrix (Fin ni) (Fin no) ℝ)
    (b : Fin no → ℝ) (state_below : Matrix (Fin bs) (Fin ni) ℝ)
    (W_above : Matrix (Fin no) (Fin k) ℝ) :
    (Ising.mf_update W b state_below none W_above false =
      fun i j => Real.tanh ((∑ p, state_below i p * W p j) + b j)) ∧
    ∀ sa : Matrix (Fin bs) (Fin k) ℝ,
      Ising.mf_update W b state_below (some sa) W_above false =
        fun i j => Real.tanh ((∑ p, state_below i p * W p j) + b j +
          ∑ q, sa i q * W_above j q) := by
  constructor
  · funext i j
    simp [Ising.mf_update, Ising.lmul, Matrix.mul_apply]
  · intro sa
    funext i j
    simp [Ising.mf_update, Ising.lmul, Ising.downward_message, Ising.lmul_T,
      Matrix.mul_apply, Matrix.transpose_apply]

/-- C3: IsingHidden.downward_message is the exact transpose application of
the forward linear map: it returns x·Wᵀ, and the forward/backward pair is
adjoint for the elementwise inner product on batches. -/
theorem downward_message_transpose {bs ni no : ℕ}
    (W : Matrix (Fin ni) (Fin no) ℝ) (x : Matrix (Fin bs) (Fin no) ℝ) :
    Ising.downward_message W x = x * W.transpose ∧
    ∀ y : Matrix (Fin bs) (Fin ni) ℝ,
      (∑ i, ∑ j, Ising.lmul W y i j * x i j) =
        ∑ i, ∑ p, y i p * Ising.downward_message W x i p := by
  refine ⟨rfl, fun y => ?_⟩
  refine Finset.sum_congr rfl (fun i _ => ?_)
  simp only [Ising.lmul, Ising.downward_message, Ising.lmul_T,
    Matrix.mul_apply, Matrix.transpose_apply, Finset.sum_mul, Finset.mul_sum]
  rw [Finset.sum_comm]
  exact Finset.sum_congr rfl fun p _ => Finset.sum_congr rfl fun j _ => by ring

/-- C4: when max_col_norm = c > 0 is set, after censor_updates runs every
column of the updated weight matrix has L2 norm at most c + 1e-7. -/
theorem censor_updates_col_norm_bound {m n : ℕ} (c : ℝ)
    (U : Matrix (Fin m) (Fin n) ℝ) (hc : 0 < c) (j : Fin n) :
    Ising.colNorm (Ising.censor_updates (some c) U) j ≤ c + Ising.epsNorm := by
  have hn : 0 ≤ Ising.colNorm U j := Ising.colNorm_nonneg U j
  rw [Ising.colNorm_censor, max_eq_left hn]
  have heps := Ising.epsNorm_pos
  have hd : 0 < Ising.epsNorm + Ising.colNorm U j := by linarith
  have ht : 0 ≤ min (Ising.colNorm U j) c / (Ising.epsNorm + Ising.colNorm U j) :=
    div_nonneg (le_min hn hc.le) hd.le
  rw [abs_of_nonneg ht, div_mul_eq_mul_div, div_le_iff₀ hd]
  have h1 : min (Ising.colNorm U j) c ≤ c := min_le_right _ _
  have h0 : 0 ≤ min (Ising.colNorm U j) c := le_min hn hc.le
  nlinarith

/-- Witness for C4 at the concrete input c = 1, U = Wone. -/
theorem censor_updates_col_norm_bound_witness :
    (0 : ℝ) < 1 ∧
      Ising.colNorm (Ising.censor_updates (some 1) Ising.Wone) 0 ≤
        1 + Ising.epsNorm :=
  ⟨by norm_num, censor_updates_col_norm_bound 1 Ising.Wone (by norm_num) 0⟩

/-- Counterexample to C5 as stated: the single column of Wone has L2 norm
1 ≤ 2 = max_col_norm, yet censor_updates changes its entry (it multiplies
it by 1 / (1 + 1e-7)). -/
theorem censor_updates_changes_column_under_bound :
    Ising.colNorm Ising.Wone 0 ≤ 2 ∧
      Ising.censor_updates (some 2) Ising.Wone 0 0 ≠ Ising.Wone 0 0 := by
  refine ⟨by rw [Ising.colNorm_Wone]; norm_num, ?_⟩
  rw [Ising.censor_updates_some_apply, Ising.colNorm_Wone]
  show (1 : ℝ) * (min (max 1 0) 2 / (Ising.epsNorm + 1)) ≠ 1
  norm_num [Ising.epsNorm]

/-- C5 amended: a column whose L2 norm is at or below max_col_norm is not
left unchanged; each of its entries is multiplied by the factor
norm / (1e-7 + norm), which equals 1 only in the limit, so only
zero columns survive exactly. -/
theorem censor_updates_column_under_bound_scaled {m n : ℕ} (c : ℝ)
    (U : Matrix (Fin m) (Fin n) ℝ) (j : Fin n)
    (h : Ising.colNorm U j ≤ c) (i : Fin m) :
    Ising.censor_updates (some c) U i j =
      U i j * (Ising.colNorm U j / (Ising.epsNorm + Ising.colNorm U j)) := by
  rw [Ising.censor_updates_some_apply, max_eq_left (Ising.colNorm_nonneg U j),
    min_eq_left h]

/-- Witness for the amended C5 at c = 2, U = Wone. -/
theorem censor_updates_column_under_bound_scaled_witness :
    Ising.colNorm Ising.Wone 0 ≤ 2 ∧
      Ising.censor_updates (some 2) Ising.Wone 0 0 =
        Ising.Wone 0 0 *
          (Ising.colNorm Ising.Wone 0 /
            (Ising.epsNorm + Ising.colNorm Ising.Wone 0)) := by
  have h : Ising.colNorm Ising.Wone 0 ≤ 2 := by rw [Ising.colNorm_Wone]; norm_num
  exact ⟨h, censor_updates_column_under_bound_scaled 2 Ising.Wone 0 h 0⟩

/-- Counterexample to C6 as stated: applying the projection twice to Wone
with max_col_norm = 2 does not reproduce a single application. -/
theorem censor_updates_not_idempotent :
    Ising.censor_updates (some 2) (Ising.censor_updates (some 2) Ising.Wone) ≠
      Ising.censor_updates (some 2) Ising.Wone := by
  rw [Ne, Ising.censor_fixed_iff]
  intro h
  have h00 := congrFun (congrFun h 0) 0
  rw [Ising.censor_updates_some_apply, Ising.colNorm_Wone] at h00
  norm_num [Ising.Wone, Ising.epsNorm] at h00

/-- C6 amended: applying censor_updates twice coincides with applying it
once exactly when the single application already yields the zero matrix;
the projection strictly shrinks every nonzero column each time it runs. -/
theorem censor_updates_idempotent_iff {m n : ℕ} (c : ℝ)
    (X : Matrix (Fin m) (Fin n) ℝ) :
    Ising.censor_updates (some c) (Ising.censor_updates (some c) X) =
        Ising.censor_updates (some c) X ↔
      Ising.censor_updates (some c) X = 0 :=
  Ising.censor_fixed_iff c _

/-- C7 amended: bias construction from marginals succeeds exactly when the
maximum entry of the design matrix is 1 and the minimum entry is -1; the
two extremal checks are the only binary-data validation the code
performs, and they run before the bias vector is built. -/
theorem init_tanh_bias_ok_iff {m n : ℕ}
    (X : Matrix (Fin (m + 1)) (Fin (n + 1)) ℚ) :
    (∃ v, Ising.init_tanh_bias_from_marginals X = Except.ok v) ↔
      Ising.matMax X = 1 ∧ Ising.matMin X = -1 := by
  unfold Ising.init_tanh_bias_from_marginals
  split_ifs with h1 h2
  · simpa using ⟨h1, h2⟩
  · simp [h1, h2]
  · simp [h1]

/-- Counterexample to C7 as stated: Xhalf contains the value 1/2, which is
neither -1 nor 1, yet bias construction from it raises no error, because
its maximum is 1 and its minimum is -1. -/
theorem init_tanh_bias_accepts_non_binary :
    (Ising.Xhalf 0 2 = 1 / 2 ∧ Ising.Xhalf 0 2 ≠ 1 ∧ Ising.Xhalf 0 2 ≠ -1) ∧
      ∃ v, Ising.init_tanh_bias_from_marginals Ising.Xhalf = Except.ok v := by
  constructor
  · refine ⟨Ising.Xhalf_apply_two 0, ?_, ?_⟩ <;>
      rw [Ising.Xhalf_apply_two 0] <;> norm_num
  · refine ⟨fun j => Ising.arctanh
      ((Ising.clip (Ising.colMean Ising.Xhalf j) (1 / 10 ^ 7) (1 - 1 / 10 ^ 7) : ℚ) : ℝ), ?_⟩
    unfold Ising.init_tanh_bias_from_marginals
    rw [if_pos Ising.matMax_Xhalf, if_pos Ising.matMin_Xhalf]

/-- C8: IsingHidden.sample with the random source omitted raises the
ValueError demanding an explicit theano_rng, for every value of the other
arguments; it never falls back to a default generator. -/
theorem sample_requires_rng {bs ni no k : ℕ} (W : Matrix (Fin ni) (Fin no) ℝ)
    (b : Fin no → ℝ) (state_below : Matrix (Fin bs) (Fin ni) ℝ)
    (state_above : Option (Matrix (Fin bs) (Fin k) ℝ))
    (W_above : Matrix (Fin no) (Fin k) ℝ) :
    Ising.sample W b state_below state_above W_above none =
      Except.error
        "theano_rng is required; it just defaults to None so that it may appear after layer_above / state_above in the list." :=
  rfl

/-- C9: weight initialization at set_input_space time succeeds exactly
when one of irange / sparse_init is set and the other is not; both set or
neither set hits a failing assert. -/
theorem set_input_space_W_ok_iff {ni no : ℕ} (irange sparse_init : Option ℝ)
    (sparse_stdev include_prob : ℝ)
    (unif01 incl01 : Matrix (Fin ni) (Fin no) ℝ) :
    (∃ Wv, Ising.set_input_space_W irange sparse_init sparse_stdev
        include_prob unif01 incl01 = Except.ok Wv) ↔
      ((∃ a, irange = some a) ∧ sparse_init = none) ∨
        (irange = none ∧ ∃ a, sparse_init = some a) := by
  cases irange <;> cases sparse_init <;> simp [Ising.set_input_space_W]

/-- C10: the explicit-sparse initialization path produces the identically
zero weight matrix of shape (input_dim, dim) for every sparse_stdev: the
code zeroes the matrix and then scales the zeros. -/
theorem set_input_space_W_sparse_zero {ni no : ℕ} (sv : ℝ)
    (sparse_stdev include_prob : ℝ)
    (unif01 incl01 : Matrix (Fin ni) (Fin no) ℝ) :
    Ising.set_input_space_W none (some sv) sparse_stdev include_prob
        unif01 incl01 = Except.ok (0 : Matrix (Fin ni) (Fin no) ℝ) := by
  have h : Ising.set_input_space_W none (some sv) sparse_stdev include_prob
      unif01 incl01 =
        Except.ok (fun _ _ => 0 * sparse_stdev : Matrix (Fin ni) (Fin no) ℝ) :=
    rfl
  rw [h]
  congr 1
  funext i j
  simp
